import Mathlib

/-!
Verification development for the RAG knowledge base of the
`ai-text-analysis-rigger` repository (`src/knowledge_base.py`).

Text is modelled as `List Char`.  Python's machine floats appear only as
embedding-vector components and file timestamps, which the program merely
compares, multiplies and sums; they are modelled with exact integers
(`Int`) for vectors and timestamps, and exact integer truncated division
for the adaptive-count interpolation.  The sentence-transformers embedding model
is an external capability (spec §4.2) and is a parameter
`encode : List Str → Option (List (List Int))`, with `none` modelling a
raised exception.  Scanning functions that model Python `re` operations
are written with an explicit fuel argument (always called with
fuel = input length, which suffices because every step consumes at least
one character) so that they are structurally recursive and reduce inside
the kernel.
-/

set_option maxRecDepth 100000

/-- Text, modelled as a list of characters. -/
abbrev Str := List Char

/-- Python `\s` (whitespace class); the documents and queries considered
here use only ASCII whitespace, where the two classes agree. -/
def isWs (c : Char) : Bool := c.isWhitespace

/-- Python `\w` (word-character class); on ASCII this is
alphanumerics plus underscore. -/
def isWordChar (c : Char) : Bool := c.isAlphanum || c = '_'

/-- Python `str.strip()`: remove leading and trailing whitespace. -/
def strip (s : Str) : Str :=
  ((s.dropWhile isWs).reverse.dropWhile isWs).reverse

/-- Split a list at the first occurrence of the (non-empty) pattern
`pat`, returning the part before it and the part after it; `none` when
`pat` does not occur.  This models the leftmost-match search a regex
engine performs for a literal pattern. -/
def splitAtPat (pat : Str) : Str → Option (Str × Str)
  | [] => none
  | c :: rest =>
    if pat.isPrefixOf (c :: rest) then
      some ([], (c :: rest).drop pat.length)
    else
      match splitAtPat pat rest with
      | some (pre, post) => some (c :: pre, post)
      | none => none

theorem splitAtPat_length {pat l pre post} (h : splitAtPat pat l = some (pre, post)) :
    post.length ≤ l.length := by
  induction l generalizing pre post with
  | nil => simp [splitAtPat] at h
  | cons c rest ih =>
    simp only [splitAtPat] at h
    split at h
    · simp only [Option.some.injEq, Prod.mk.injEq] at h
      obtain ⟨-, h2⟩ := h
      subst h2
      simp only [List.length_drop, List.length_cons]
      omega
    · cases hs : splitAtPat pat rest with
      | none => rw [hs] at h; exact absurd h (by simp)
      | some pr =>
        obtain ⟨p1, p2⟩ := pr
        rw [hs] at h
        simp only [Option.some.injEq, Prod.mk.injEq] at h
        obtain ⟨-, h2⟩ := h
        subst h2
        have := ih hs
        simp
        omega

/-- At a position right after a `<`, try to match the rest of the Python
pattern `<(\w+)>(.*?)</\1>` (`re.DOTALL`): a non-empty greedy run of word
characters, a `>`, then the shortest content followed by the
corresponding closing tag.  Returns `((tag, content), rest-after-match)`. -/
def tagAt (rest : Str) : Option ((Str × Str) × Str) :=
  if rest.takeWhile isWordChar ≠ [] ∧
      (rest.drop (rest.takeWhile isWordChar).length).head? = some '>' then
    match splitAtPat ('<' :: '/' :: (rest.takeWhile isWordChar ++ ['>']))
        (rest.drop (rest.takeWhile isWordChar).length).tail with
    | some (con, rest2) => some ((rest.takeWhile isWordChar, con), rest2)
    | none => none
  else none

theorem takeWhile_length_le (p : Char → Bool) (l : Str) :
    (l.takeWhile p).length ≤ l.length := by
  induction l with
  | nil => simp
  | cons c rest ih =>
    rw [List.takeWhile_cons]
    split
    · simpa using ih
    · simp

theorem tagAt_length {rest tc rest2} (h : tagAt rest = some (tc, rest2)) :
    rest2.length < rest.length := by
  unfold tagAt at h
  split at h
  · rename_i hcond
    obtain ⟨htag, hhead⟩ := hcond
    split at h
    · rename_i con r2 hs
      simp only [Option.some.injEq, Prod.mk.injEq] at h
      obtain ⟨-, h2⟩ := h
      subst h2
      have h1 := splitAtPat_length hs
      have h2 : (rest.drop (rest.takeWhile isWordChar).length).tail.length =
          (rest.drop (rest.takeWhile isWordChar).length).length - 1 :=
        List.length_tail _
      have h5 : (rest.drop (rest.takeWhile isWordChar).length).length =
          rest.length - (rest.takeWhile isWordChar).length := List.length_drop _ _
      have h4 : (rest.takeWhile isWordChar).length ≠ 0 := by
        intro h0
        exact htag (List.eq_nil_of_length_eq_zero h0)
      have h6 : (rest.takeWhile isWordChar).length ≤ rest.length :=
        takeWhile_length_le _ _
      omega
    · exact absurd h (by simp)
  · exact absurd h (by simp)

/-- Fueled scan for `re.findall(r'<(\w+)>(.*?)</\1>', content, re.DOTALL)`:
at each position, try to match; on success emit the two groups and
continue after the match, otherwise advance one character. -/
def extractTagsAuxF : Nat → Str → List (Str × Str)
  | 0, _ => []
  | _ + 1, [] => []
  | f + 1, c :: rest =>
    if c = '<' then
      match tagAt rest with
      | some (tc, rest2) => tc :: extractTagsAuxF f rest2
      | none => extractTagsAuxF f rest
    else extractTagsAuxF f rest

/-- All matches of the section pattern, in source order. -/
def extractTags (s : Str) : List (Str × Str) := extractTagsAuxF s.length s

/-- Python dict assignment `d[k] = v`: update in place if the key is
present (keeping its position), else append. -/
def dictInsert (d : List (Str × Str)) (k v : Str) : List (Str × Str) :=
  if d.any (fun p => p.1 == k) then
    d.map (fun p => if p.1 == k then (k, v) else p)
  else d ++ [(k, v)]

/-- Model of `KnowledgeBase._extract_sections`: run the tag regex over the
document and collect the matches into an (insertion-ordered) dict. -/
def extractSections (content : Str) : List (Str × Str) :=
  (extractTags content).foldl (fun d tc => dictInsert d tc.1 tc.2) []

/-- Bullet markers accepted by `_chunk_section`'s regex `[•\-\*]`. -/
def isBulletChar (c : Char) : Bool := c = '•' || c = '-' || c = '*'

/-- Scan forward from `prev`-then-input, taking characters lazily until
the lookahead `(?=^[•\-\*]|\Z)` holds, i.e. until the next line-start
bullet marker or the end of the text (`re.MULTILINE | re.DOTALL`).
Returns the captured characters and the rest (starting at the boundary). -/
def captureFrom (prev : Char) : Str → (Str × Str)
  | [] => ([], [])
  | c :: rest =>
    if prev = '\n' ∧ isBulletChar c then ([], c :: rest)
    else
      let pr := captureFrom c rest
      (c :: pr.1, pr.2)

theorem captureFrom_length (prev : Char) (l : Str) :
    (captureFrom prev l).2.length ≤ l.length := by
  induction l generalizing prev with
  | nil => simp [captureFrom]
  | cons c rest ih =>
    rw [captureFrom]
    split
    · simp
    · simpa using Nat.le_succ_of_le (ih c)

/-- After a line-start bullet marker, match `\s+(.+?)(?=^[•\-\*]|\Z)`:
a greedy run of whitespace, then a non-empty lazy capture up to the next
line-start bullet or the end.  When the whitespace run reaches the end of
the text the engine backtracks one whitespace character so that `.+?`
can still match, capturing that single whitespace character. -/
def matchBullet (rest : Str) : Option (Str × Str) :=
  if rest.takeWhile isWs = [] then none
  else
    match rest.drop (rest.takeWhile isWs).length with
    | [] =>
      if 2 ≤ (rest.takeWhile isWs).length then
        some ([(rest.takeWhile isWs).getLastD ' '], [])
      else none
    | a :: t =>
      some (a :: (captureFrom a t).1, (captureFrom a t).2)

theorem matchBullet_length {rest cap r} (h : matchBullet rest = some (cap, r)) :
    r.length ≤ rest.length := by
  unfold matchBullet at h
  split at h
  · exact absurd h (by simp)
  · split at h
    · split at h
      · simp only [Option.some.injEq, Prod.mk.injEq] at h
        obtain ⟨-, h2⟩ := h
        subst h2
        simp
      · exact absurd h (by simp)
    · rename_i a t hdrop
      simp only [Option.some.injEq, Prod.mk.injEq] at h
      obtain ⟨-, h2⟩ := h
      subst h2
      have h1 := captureFrom_length a t
      have h2 : (rest.drop (rest.takeWhile isWs).length).length ≤ rest.length := by
        simp
      rw [hdrop] at h2
      simp only [List.length_cons] at h2
      omega

/-- Fueled scan for
`re.findall(r'^[•\-\*]\s+(.+?)(?=^[•\-\*]|\Z)', content, re.MULTILINE | re.DOTALL)`.
The Bool tracks whether the current position is at a line start. -/
def findBulletsF : Nat → Bool → Str → List Str
  | 0, _, _ => []
  | _ + 1, _, [] => []
  | f + 1, atLS, c :: rest =>
    if atLS ∧ isBulletChar c then
      match matchBullet rest with
      | some (cap, r) => cap :: findBulletsF f true r
      | none => findBulletsF f (c = '\n') rest
    else findBulletsF f (c = '\n') rest

/-- All bullet-item captures of a section, in source order. -/
def findBullets (s : Str) : List Str := findBulletsF s.length true s

/-- Fueled scan for `re.split(r'\n\n+', content)`: pieces between runs
of two or more newlines.  `acc` holds the current piece reversed. -/
def splitParasF : Nat → Str → Str → List Str
  | 0, acc, _ => [acc.reverse]
  | _ + 1, acc, [] => [acc.reverse]
  | f + 1, acc, c :: rest =>
    if c = '\n' ∧ rest.head? = some '\n' then
      acc.reverse :: splitParasF f [] (rest.tail.dropWhile (fun x => x = '\n'))
    else splitParasF f (c :: acc) rest

/-- Model of `re.split(r'\n\n+', content)`. -/
def splitParas (s : Str) : List Str := splitParasF s.length [] s

/-- A retrievable chunk (`_load_and_chunk` dictionaries).  The Python
key `section` is a Lean keyword, so the field is named `sect`; `kind`
models the `type` key. -/
structure Chunk where
  sect : Str
  content : Str
  kind : Str
  original : Str
deriving DecidableEq, Repr

/-- Model of `KnowledgeBase._chunk_section`: bullet sub-items (trimmed text longer
than 20 characters), then blank-line-separated paragraphs (trimmed length
over 50, not starting with `#` or a code fence, content not already
present among the chunks collected so far for this section). -/
def chunkSection (sectionName : Str) (content : Str) : List Chunk :=
  let bulletChunks := (findBullets content).foldl
    (fun acc b =>
      if (strip b).length > 20 then
        acc ++ [{ sect := sectionName, content := strip b,
                  kind := "sub-item".toList, original := strip b }]
      else acc)
    []
  (splitParas content).foldl
    (fun acc para =>
      if (strip para).length > 50 ∧ ¬ (['#'].isPrefixOf (strip para))
          ∧ ¬ ("```".toList.isPrefixOf (strip para))
          ∧ strip para ∉ acc.map Chunk.content then
        acc ++ [{ sect := sectionName, content := strip para,
                  kind := "paragraph".toList, original := strip para }]
      else acc)
    bulletChunks

/-- Model of `KnowledgeBase._load_and_chunk`: one `section` chunk per extracted
section (content trimmed), followed by that section's sub-chunks. -/
def loadAndChunk (content : Str) : List Chunk :=
  (extractSections content).foldl
    (fun chunks nc =>
      chunks ++ ({ sect := nc.1, content := strip nc.2, kind := "section".toList,
                   original := strip nc.2 } : Chunk) :: chunkSection nc.1 nc.2)
    []

/-- Fueled scan for `re.split(r'[.!?]\s+', chunk_text)`: split at a
sentence-ending punctuation character followed by a (greedy) run of
whitespace; the separator is consumed.  `acc` holds the current piece
reversed. -/
def splitSentencesF : Nat → Str → Str → List Str
  | 0, acc, _ => [acc.reverse]
  | _ + 1, acc, [] => [acc.reverse]
  | f + 1, acc, c :: rest =>
    if (c == '.' || c == '!' || c == '?') &&
        (match rest.head? with | some w => isWs w | none => false) then
      acc.reverse :: splitSentencesF f [] (rest.dropWhile isWs)
    else splitSentencesF f (c :: acc) rest

/-- Model of `re.split(r'[.!?]\s+', chunk_text)`. -/
def splitSentences (s : Str) : List Str := splitSentencesF s.length [] s

/-- Fueled scan for Python `str.split()` (no argument): maximal runs of
non-whitespace characters, with no empty pieces. -/
def splitWsF : Nat → Str → List Str
  | 0, _ => []
  | _ + 1, [] => []
  | f + 1, c :: rest =>
    if isWs c then splitWsF f rest
    else (c :: rest.takeWhile (fun x => !isWs x)) ::
      splitWsF f (rest.drop (rest.takeWhile (fun x => !isWs x)).length)

/-- Python `text.split()`. -/
def splitWs (s : Str) : List Str := splitWsF s.length s

/-- Model of `KnowledgeBase._adaptive_retrieval_count`: word count below 100 gives
`min_guidelines`, above 500 gives `max_guidelines`, otherwise linear
interpolation: `int((word_count - 100) / 400 * (max_g - min_g))` added to
`min_guidelines`.  The source evaluates the interpolation in float
arithmetic; it is modelled exactly, where Python's `int(...)` truncation
toward zero of the rational value `(wc - 100) * (maxG - minG) / 400` is
integer truncated division. -/
def adaptiveRetrievalCount (minG maxG : Int) (text : Str) : Int :=
  if ((splitWs text).length : Int) < 100 then minG
  else if ((splitWs text).length : Int) > 500 then maxG
  else
    minG + (((((splitWs text).length : Int) - 100)) * (maxG - minG)).tdiv 400

/-- Model of `np.dot` applied to two embedding rows. -/
def dotProd (u v : List Int) : Int := ((u.zip v).map (fun p => p.1 * p.2)).sum

/-- Comparison used to model sorting of `(position, score)` pairs:
ascending score, ties broken by original position (a stable argsort). -/
def pairRel (a b : Nat × Int) : Prop := a.2 < b.2 ∨ (a.2 = b.2 ∧ a.1 ≤ b.1)

instance : DecidableRel pairRel := fun a b =>
  inferInstanceAs (Decidable (a.2 < b.2 ∨ (a.2 = b.2 ∧ a.1 ≤ b.1)))

instance : IsTotal (Nat × Int) pairRel :=
  ⟨by intro a b; unfold pairRel; omega⟩

instance : IsTrans (Nat × Int) pairRel :=
  ⟨by intro a b c h1 h2; unfold pairRel at *; omega⟩

/-- Model of `np.argsort(similarities)`: positions sorted by ascending value.
NumPy's default tie order is implementation-defined; the stable order
(ties by position) is used here, and the properties proved below do not
depend on how ties are broken. -/
def argsortStable (xs : List Int) : List Nat :=
  (List.insertionSort pairRel xs.enum).map Prod.fst

/-- Model of `KnowledgeBase._extract_relevant_sentences`: split the chunk into
sentences, trim, drop those of length at most 20; an empty remainder
falls back to the first 200 characters of the raw chunk; at most
`maxSentences` remaining sentences return the whole chunk; otherwise
embed sentences and query, score by dot product, keep the top
`maxSentences` (last entries of the ascending argsort), re-sort the kept
positions ascending, and join with `". "` plus a trailing period. -/
def extractRelevantSentences (encode : List Str → Option (List (List Int)))
    (chunkText queryText : Str) (maxSentences : Nat) : Option Str :=
  let sentences := ((splitSentences chunkText).map strip).filter (fun s => s.length > 20)
  if sentences = [] then some (chunkText.take 200)
  else if sentences.length ≤ maxSentences then some chunkText
  else
    match encode sentences with
    | none => none
    | some sentEmb =>
      match encode [queryText] with
      | none => none
      | some qm =>
        let similarities := sentEmb.map (fun v => dotProd v (qm.headD []))
        let order := argsortStable similarities
        let topSorted := List.insertionSort (fun a b => a ≤ b)
          (order.drop (order.length - maxSentences))
        some (List.intercalate ('.' :: ' ' :: [])
          (topSorted.map (fun i => sentences.getD i [])) ++ ['.'])

/-- An entry passed to `_format_as_xml` (`section`/`content`/`type`). -/
structure Guideline where
  sect : Str
  content : Str
  kind : Str
deriving DecidableEq, Repr

/-- The `f"\n<{section}>"` opening tag. -/
def secOpenTag (s : Str) : Str := '\n' :: '<' :: (s ++ ['>'])

/-- The `f"</{section}>"` closing tag. -/
def secCloseTag (s : Str) : Str := '<' :: '/' :: (s ++ ['>'])

/-- One loop iteration of `_format_as_xml`: open a tag the first time a
section is seen, then append the entry's content.  The accumulator is
`(xml_parts, sections_seen)`; `sections_seen` is a Python `set`, modelled
as an insertion-ordered duplicate-free list (CPython's set iteration
order is implementation-defined; the properties proved below use only
which elements the set holds). -/
def formatStep (acc : List Str × List Str) (g : Guideline) : List Str × List Str :=
  if g.sect ∈ acc.2 then (acc.1 ++ [g.content], acc.2)
  else (acc.1 ++ [secOpenTag g.sect] ++ [g.content], acc.2 ++ [g.sect])

/-- The `xml_parts` list built by `_format_as_xml` before joining:
outer opening tag, interleaved section tags and contents, all closing
tags, outer closing tag. -/
def formatParts (gs : List Guideline) : List Str :=
  (gs.foldl formatStep (["<style_guidelines>".toList], [])).1
    ++ ((gs.foldl formatStep (["<style_guidelines>".toList], [])).2).map secCloseTag
    ++ ["\n</style_guidelines>".toList]

/-- Model of `KnowledgeBase._format_as_xml`: empty input gives the empty string,
otherwise the parts joined with newlines. -/
def formatAsXml (gs : List Guideline) : Str :=
  if gs = [] then [] else List.intercalate ['\n'] (formatParts gs)

/-- Modelled from the spec: squared Euclidean distance, the metric of
`faiss.IndexFlatL2` (§4.3), whose implementation is not part of this
repository. -/
def sqDist (u v : List Int) : Int :=
  ((u.zip v).map (fun p => (p.1 - p.2) * (p.1 - p.2))).sum

/-- Modelled from the spec: `faiss.IndexFlatL2.search` per the Vector
Index contract of §4.3 — the indexed vectors' positions ordered by
ascending squared Euclidean distance to the query, ties broken by
original position, clamped to `min(k, number_of_indexed_chunks)`;
searching an empty index returns an empty result. -/
def searchIndex (vecs : List (List Int)) (q : List Int) (k : Nat) : List Nat :=
  ((List.insertionSort pairRel
    ((List.range vecs.length).map (fun i => (i, sqDist (vecs.getD i []) q)))).take k).map
    Prod.fst

/-- The mutable state of a `KnowledgeBase` instance: chunk list,
embedding matrix, index contents, recorded source modification time, and
the two retrieval bounds. -/
structure KB where
  chunks : List Chunk
  embeddings : Option (List (List Int))
  index : Option (List (List Int))
  lastModified : Option Int
  minG : Int
  maxG : Int
deriving DecidableEq, Repr

/-- The observable state of the style-guide file: whether it exists, its
text, and its modification timestamp. -/
structure FileState where
  present : Bool
  content : Str
  mtime : Int
deriving DecidableEq, Repr

/-- Model of `KnowledgeBase._build_index`.  The returned Bool is true when an
exception propagated (the embedding capability failed).  Mirrors the
source's statement order: `self.chunks` is assigned first; a document
yielding no chunks returns early without touching the other fields; an
embedding failure leaves embeddings/index/last_modified untouched while
the new chunk list has already been stored. -/
def buildIndex (encode : List Str → Option (List (List Int)))
    (fs : FileState) (s : KB) : KB × Bool :=
  if loadAndChunk fs.content = [] then
    ({ s with chunks := loadAndChunk fs.content }, false)
  else
    match encode ((loadAndChunk fs.content).map Chunk.content) with
    | none => ({ s with chunks := loadAndChunk fs.content }, true)
    | some em =>
      ({ s with chunks := loadAndChunk fs.content, embeddings := some em,
                index := some em, lastModified := some fs.mtime }, false)

/-- Model of `KnowledgeBase._check_and_rebuild`: missing file — do nothing;
no recorded timestamp or a strictly newer timestamp — rebuild. -/
def checkAndRebuild (encode : List Str → Option (List (List Int)))
    (fs : FileState) (s : KB) : KB × Bool :=
  if fs.present = false then (s, false)
  else
    match s.lastModified with
    | none => buildIndex encode fs s
    | some t => if fs.mtime > t then buildIndex encode fs s else (s, false)

/-- Model of `KnowledgeBase.__init__`: empty state, then a build when the style
guide exists (a missing file only logs a warning). -/
def initKB (encode : List Str → Option (List (List Int)))
    (fs : FileState) (minG maxG : Int) : KB × Bool :=
  if fs.present then
    buildIndex encode fs { chunks := [], embeddings := none, index := none,
                           lastModified := none, minG := minG, maxG := maxG }
  else ({ chunks := [], embeddings := none, index := none,
          lastModified := none, minG := minG, maxG := maxG }, false)

/-- The chunk-retrieval step of `get_relevant_guidelines`:
`[self.chunks[idx] for idx in indices[0]]`. -/
def retrieveChunks (s : KB) (q : List Int) (k : Nat) : List Chunk :=
  (searchIndex (s.index.getD []) q k).map
    (fun i => s.chunks.getD i { sect := [], content := [], kind := [], original := [] })

/-- The guideline-collection loop of `get_relevant_guidelines`: extract
relevant sentences from each retrieved chunk and keep the non-empty
results; `none` models an exception from the embedding capability. -/
def extractLoop (encode : List Str → Option (List (List Int)))
    (queryText : Str) : List Chunk → Option (List Guideline)
  | [] => some []
  | c :: cs =>
    match extractRelevantSentences encode c.content queryText 3 with
    | none => none
    | some r =>
      match extractLoop encode queryText cs with
      | none => none
      | some gs =>
        some (if r = [] then gs else
          { sect := c.sect, content := r, kind := c.kind } :: gs)

/-- Model of `KnowledgeBase.get_relevant_guidelines`: freshness check (a failed
rebuild propagates as an error), early empty return when index or chunks
are missing, adaptive or caller-supplied `top_k`, query embedding, index
search, per-chunk sentence extraction, XML formatting.  The result pairs
the returned value (or propagated error) with the final state. -/
def getRelevantGuidelines (encode : List Str → Option (List (List Int)))
    (fs : FileState) (s : KB) (text : Str) (topK : Option Int) :
    Except Unit Str × KB :=
  match checkAndRebuild encode fs s with
  | (s1, true) => (Except.error (), s1)
  | (s1, false) =>
    if s1.index = none ∨ s1.chunks = [] then (Except.ok [], s1)
    else
      match encode [text] with
      | none => (Except.error (), s1)
      | some qm =>
        match extractLoop encode text
            (retrieveChunks s1 (qm.headD [])
              ((topK.getD (adaptiveRetrievalCount s1.minG s1.maxG text)).toNat)) with
        | none => (Except.error (), s1)
        | some gls => (Except.ok (formatAsXml gls), s1)

/-- Values appearing in the `get_stats` dictionary. -/
inductive StatValue where
  | nat (n : Nat)
  | bool (b : Bool)
  | time (t : Option Int)
  | int (i : Int)
deriving DecidableEq, Repr

/-- Model of `KnowledgeBase.get_stats`, as the ordered key-value dictionary the
source builds (`len(self.chunks) if self.chunks else 0` equals the chunk
list's length in every case). -/
def getStats (fs : FileState) (s : KB) : List (String × StatValue) :=
  [("chunks_indexed", StatValue.nat s.chunks.length),
   ("style_guide_exists", StatValue.bool fs.present),
   ("last_modified", StatValue.time s.lastModified),
   ("min_guidelines", StatValue.int s.minG),
   ("max_guidelines", StatValue.int s.maxG)]

instance : DecidableEq (Except Unit Str) := fun a b =>
  match a, b with
  | Except.ok x, Except.ok y =>
    if h : x = y then isTrue (h ▸ rfl) else isFalse (by intro hh; cases hh; exact h rfl)
  | Except.ok _, Except.error _ => isFalse (by intro hh; cases hh)
  | Except.error _, Except.ok _ => isFalse (by intro hh; cases hh)
  | Except.error x, Except.error y => isTrue (by cases x; cases y; rfl)

theorem getRG_snd (encode : List Str → Option (List (List Int)))
    (fs : FileState) (s : KB) (text : Str) (topK : Option Int) :
    (getRelevantGuidelines encode fs s text topK).2 = (checkAndRebuild encode fs s).1 := by
  unfold getRelevantGuidelines
  rcases hcr : checkAndRebuild encode fs s with ⟨s1, b⟩
  cases b
  · dsimp only
    split
    · rfl
    · rcases encode [text] with _ | qm
      · rfl
      · dsimp only
        split <;> rfl
  · rfl

/-- C10: if the source document is absent, or its current modification
time is not strictly greater than the recorded (non-null) one, a
`get_relevant_guidelines` call leaves the entire knowledge-base state
(chunks, embedding matrix, index, recorded timestamp) unchanged. -/
theorem c10_frame (encode : List Str → Option (List (List Int)))
    (fs : FileState) (s : KB) (text : Str) (topK : Option Int) (t : Int)
    (h : fs.present = false ∨ (s.lastModified = some t ∧ fs.mtime ≤ t)) :
    (getRelevantGuidelines encode fs s text topK).2 = s := by
  have hc : checkAndRebuild encode fs s = (s, false) := by
    unfold checkAndRebuild
    rcases h with h | ⟨h1, h2⟩
    · rw [if_pos h]
    · rw [h1]
      by_cases hp : fs.present = false
      · rw [if_pos hp]
      · rw [if_neg hp]
        dsimp only
        rw [if_neg (by omega)]
  rw [getRG_snd, hc]

/-- C10 witness: a concrete up-to-date state is untouched by a
retrieval call. -/
theorem c10_frame_witness :
    (getRelevantGuidelines (fun _ => none) ⟨true, [], 5⟩
      ⟨[], none, none, some 7, 1, 2⟩ [] none).2 = ⟨[], none, none, some 7, 1, 2⟩ :=
  c10_frame _ _ _ _ _ 7 (Or.inr ⟨rfl, by decide⟩)

/-- C6 counterexample: `get_stats` does not use the key names the claim
asserts; in particular `"chunk_count"` is not among its keys (the code
uses `"chunks_indexed"` and `"style_guide_exists"`). -/
theorem c6_counterexample :
    ¬ ((getStats ⟨true, [], 0⟩ ⟨[], none, none, none, 5, 15⟩).map Prod.fst
        = ["chunk_count", "source_exists", "last_modified", "min_guidelines", "max_guidelines"])
    ∧ "chunk_count" ∉ (getStats ⟨true, [], 0⟩ ⟨[], none, none, none, 5, 15⟩).map Prod.fst :=
  ⟨by decide, by decide⟩

/-- C6 amended: `get_stats` returns the keys `chunks_indexed`,
`style_guide_exists`, `last_modified`, `min_guidelines`,
`max_guidelines`; over an empty document file,
`get_relevant_guidelines "any text"` returns the empty string and the
reported chunk count is `0`. -/
theorem c6_stats (fs : FileState) (s : KB) :
    (getStats fs s).map Prod.fst
      = ["chunks_indexed", "style_guide_exists", "last_modified",
         "min_guidelines", "max_guidelines"]
    ∧ (getRelevantGuidelines (fun ts => some (ts.map (fun t => [(t.length : Int)])))
        ⟨true, [], 0⟩
        (initKB (fun ts => some (ts.map (fun t => [(t.length : Int)])))
          ⟨true, [], 0⟩ 5 15).1
        "any text".toList none).1 = Except.ok []
    ∧ ("chunks_indexed", StatValue.nat 0) ∈ getStats ⟨true, [], 0⟩
        (initKB (fun ts => some (ts.map (fun t => [(t.length : Int)])))
          ⟨true, [], 0⟩ 5 15).1 :=
  ⟨rfl, by decide, by decide⟩

/-- C5 counterexample: with `min_guidelines = 5`, `max_guidelines = 6`
(so `max > min`) and a 300-word query, the adaptive count equals
`min_guidelines` instead of lying strictly between the two bounds
(`int(0.5 * 1) = 0`). -/
theorem c5_counterexample :
    (splitWs ((List.replicate 300 ['w', ' ']).flatten)).length = 300
    ∧ (5 : Int) < 6
    ∧ adaptiveRetrievalCount 5 6 ((List.replicate 300 ['w', ' ']).flatten) = 5
    ∧ ¬ (5 < adaptiveRetrievalCount 5 6 ((List.replicate 300 ['w', ' ']).flatten)
          ∧ adaptiveRetrievalCount 5 6 ((List.replicate 300 ['w', ' ']).flatten) < 6) :=
  ⟨by decide, by decide, by decide, by decide⟩

/-- C5 amended: a 50-word query gives `min_guidelines`, a 600-word query
gives `max_guidelines`; for a 300-word query the count is strictly
between the bounds when `max_guidelines ≥ min_guidelines + 2`, but it
equals `min_guidelines` when `max_guidelines = min_guidelines + 1`. -/
theorem c5_adaptive (minG maxG : Int) (t50 t300 t600 : Str)
    (hlt : minG < maxG)
    (h50 : (splitWs t50).length = 50)
    (h300 : (splitWs t300).length = 300)
    (h600 : (splitWs t600).length = 600) :
    adaptiveRetrievalCount minG maxG t50 = minG
    ∧ adaptiveRetrievalCount minG maxG t600 = maxG
    ∧ (minG + 2 ≤ maxG →
        minG < adaptiveRetrievalCount minG maxG t300
          ∧ adaptiveRetrievalCount minG maxG t300 < maxG)
    ∧ (maxG = minG + 1 → adaptiveRetrievalCount minG maxG t300 = minG) := by
  have e300 : adaptiveRetrievalCount minG maxG t300
      = minG + (200 * (maxG - minG)).tdiv 400 := by
    unfold adaptiveRetrievalCount
    rw [h300]
    norm_num
  have etd : (200 * (maxG - minG)).tdiv 400 = 200 * (maxG - minG) / 400 := by
    have h0 : (0 : Int) ≤ maxG - minG := by omega
    exact Int.tdiv_eq_ediv (mul_nonneg (by norm_num) h0) (by norm_num)
  refine ⟨?_, ?_, ?_, ?_⟩
  · unfold adaptiveRetrievalCount
    rw [h50]
    norm_num
  · unfold adaptiveRetrievalCount
    rw [h600]
    norm_num
  · intro h2
    rw [e300, etd]
    omega
  · intro h1
    rw [e300, etd]
    omega

/-- C5 witness: concrete bounds `5`/`8` and concrete 50-, 300- and
600-word queries. -/
theorem c5_adaptive_witness :
    adaptiveRetrievalCount 5 8 ((List.replicate 50 ['w', ' ']).flatten) = 5
    ∧ adaptiveRetrievalCount 5 8 ((List.replicate 600 ['w', ' ']).flatten) = 8
    ∧ (5 < adaptiveRetrievalCount 5 8 ((List.replicate 300 ['w', ' ']).flatten)
        ∧ adaptiveRetrievalCount 5 8 ((List.replicate 300 ['w', ' ']).flatten) < 8) := by
  have h := c5_adaptive 5 8 ((List.replicate 50 ['w', ' ']).flatten)
    ((List.replicate 300 ['w', ' ']).flatten) ((List.replicate 600 ['w', ' ']).flatten)
    (by decide) (by decide) (by decide) (by decide)
  exact ⟨h.1, h.2.1, h.2.2.1 (by decide)⟩

/-- C2 counterexample: when the embedding capability fails during a
rebuild triggered by a newer modification time, the chunk list is
replaced (the previous generation does not remain unchanged) and the
failure propagates to the `get_relevant_guidelines` caller as an error. -/
theorem c2_counterexample :
    (checkAndRebuild (fun _ => none) ⟨true, "<b>good morning all</b>".toList, 20⟩
      ⟨[⟨['a'], "hello world".toList, "section".toList, "hello world".toList⟩],
        some [[11]], some [[11]], some 10, 1, 1⟩).2 = true
    ∧ (checkAndRebuild (fun _ => none) ⟨true, "<b>good morning all</b>".toList, 20⟩
        ⟨[⟨['a'], "hello world".toList, "section".toList, "hello world".toList⟩],
          some [[11]], some [[11]], some 10, 1, 1⟩).1.chunks
      ≠ [⟨['a'], "hello world".toList, "section".toList, "hello world".toList⟩]
    ∧ (getRelevantGuidelines (fun _ => none) ⟨true, "<b>good morning all</b>".toList, 20⟩
        ⟨[⟨['a'], "hello world".toList, "section".toList, "hello world".toList⟩],
          some [[11]], some [[11]], some 10, 1, 1⟩ "hi".toList none).1
      = Except.error () :=
  ⟨by decide, by decide, by decide⟩

/-- C2 amended: if the embedding capability fails during a rebuild
triggered by a newer modification time, the chunk list has already been
replaced by the newly parsed chunks while the embedding matrix, index
and recorded modification time keep their previous values, and the
failure propagates to the `get_relevant_guidelines` caller as an
error. -/
theorem c2_rebuild_failure (encode : List Str → Option (List (List Int)))
    (fs : FileState) (s : KB) (t : Int)
    (hp : fs.present = true)
    (hlm : s.lastModified = some t)
    (hmt : t < fs.mtime)
    (hch : loadAndChunk fs.content ≠ [])
    (henc : encode ((loadAndChunk fs.content).map Chunk.content) = none) :
    checkAndRebuild encode fs s = ({ s with chunks := loadAndChunk fs.content }, true)
    ∧ ∀ text topK, getRelevantGuidelines encode fs s text topK
        = (Except.error (), { s with chunks := loadAndChunk fs.content }) := by
  have hb : buildIndex encode fs s
      = ({ s with chunks := loadAndChunk fs.content }, true) := by
    unfold buildIndex
    rw [if_neg hch, henc]
  have hc : checkAndRebuild encode fs s
      = ({ s with chunks := loadAndChunk fs.content }, true) := by
    unfold checkAndRebuild
    rw [if_neg (by rw [hp]; simp), hlm]
    dsimp only
    rw [if_pos hmt, hb, hlm]
  refine ⟨hc, fun text topK => ?_⟩
  unfold getRelevantGuidelines
  rw [hc]

/-- C2 witness: a concrete one-chunk generation, a newer source file and
a failing embedder. -/
theorem c2_rebuild_failure_witness :
    (checkAndRebuild (fun _ => none) ⟨true, "<b>good morning all</b>".toList, 20⟩
      ⟨[⟨['a'], "hello world".toList, "section".toList, "hello world".toList⟩],
        some [[11]], some [[11]], some 10, 1, 1⟩).2 = true := by
  have h := c2_rebuild_failure (fun _ => none)
    ⟨true, "<b>good morning all</b>".toList, 20⟩
    ⟨[⟨['a'], "hello world".toList, "section".toList, "hello world".toList⟩],
      some [[11]], some [[11]], some 10, 1, 1⟩ 10 rfl rfl (by decide) (by decide) rfl
  rw [h.1]

/-- C3 counterexample: after a rebuild over a document that yields zero
chunks, the stored embedding matrix still has the previous generation's
row (so `rows(matrix) ≠ len(chunks)`) and the old index survives next to
the new empty chunk list — a mixture of generations. -/
theorem c3_counterexample :
    ((checkAndRebuild (fun ts => some (ts.map (fun t => [(t.length : Int)])))
        ⟨true, [], 20⟩
        (initKB (fun ts => some (ts.map (fun t => [(t.length : Int)])))
          ⟨true, "<a>hello world</a>".toList, 10⟩ 1 1).1).1.embeddings.getD []).length
      ≠ (checkAndRebuild (fun ts => some (ts.map (fun t => [(t.length : Int)])))
          ⟨true, [], 20⟩
          (initKB (fun ts => some (ts.map (fun t => [(t.length : Int)])))
            ⟨true, "<a>hello world</a>".toList, 10⟩ 1 1).1).1.chunks.length
    ∧ (checkAndRebuild (fun ts => some (ts.map (fun t => [(t.length : Int)])))
        ⟨true, [], 20⟩
        (initKB (fun ts => some (ts.map (fun t => [(t.length : Int)])))
          ⟨true, "<a>hello world</a>".toList, 10⟩ 1 1).1).1.chunks = []
    ∧ (checkAndRebuild (fun ts => some (ts.map (fun t => [(t.length : Int)])))
        ⟨true, [], 20⟩
        (initKB (fun ts => some (ts.map (fun t => [(t.length : Int)])))
          ⟨true, "<a>hello world</a>".toList, 10⟩ 1 1).1).1.index = some [[11]] :=
  ⟨by decide, by decide, by decide⟩

/-- C3 amended: a rebuild that completes fully — the document yields at
least one chunk and the embedding succeeds with one row per chunk —
replaces chunks, matrix, index and recorded timestamp together and
re-establishes `rows(matrix) = len(chunks)`; a rebuild over a document
yielding zero chunks, or whose embedding fails, leaves matrix and index
from the prior generation next to the replaced chunk list. -/
theorem c3_generation (encode : List Str → Option (List (List Int)))
    (fs : FileState) (s : KB) (em : List (List Int))
    (hch : loadAndChunk fs.content ≠ [])
    (henc : encode ((loadAndChunk fs.content).map Chunk.content) = some em)
    (hrows : em.length = (loadAndChunk fs.content).length) :
    buildIndex encode fs s
      = ({ chunks := loadAndChunk fs.content, embeddings := some em, index := some em,
           lastModified := some fs.mtime, minG := s.minG, maxG := s.maxG }, false)
    ∧ ((buildIndex encode fs s).1.embeddings.getD []).length
        = (buildIndex encode fs s).1.chunks.length := by
  have hb : buildIndex encode fs s
      = ({ chunks := loadAndChunk fs.content, embeddings := some em, index := some em,
           lastModified := some fs.mtime, minG := s.minG, maxG := s.maxG }, false) := by
    unfold buildIndex
    rw [if_neg hch, henc]
  refine ⟨hb, ?_⟩
  rw [hb]
  simpa using hrows

/-- C3 witness: a concrete successful rebuild. -/
theorem c3_generation_witness :
    ((buildIndex (fun ts => some (ts.map (fun t => [(t.length : Int)])))
      ⟨true, "<a>hello world</a>".toList, 10⟩
      ⟨[], none, none, none, 1, 1⟩).1.embeddings.getD []).length
    = (buildIndex (fun ts => some (ts.map (fun t => [(t.length : Int)])))
        ⟨true, "<a>hello world</a>".toList, 10⟩
        ⟨[], none, none, none, 1, 1⟩).1.chunks.length :=
  (c3_generation (fun ts => some (ts.map (fun t => [(t.length : Int)])))
    ⟨true, "<a>hello world</a>".toList, 10⟩ ⟨[], none, none, none, 1, 1⟩
    [[11]] (by decide) (by decide) (by decide)).2

/-- C9 counterexample: a retrieved chunk whose content is empty yields
an empty fallback and is silently dropped from the formatted output —
the call returns the empty string even though the search produced a
nearest-neighbor hit. -/
theorem c9_counterexample :
    (getRelevantGuidelines (fun ts => some (ts.map (fun t => [(t.length : Int)])))
      ⟨true, "<a>  </a>".toList, 10⟩
      (initKB (fun ts => some (ts.map (fun t => [(t.length : Int)])))
        ⟨true, "<a>  </a>".toList, 10⟩ 1 1).1
      "hello there".toList none).1 = Except.ok []
    ∧ retrieveChunks
        (initKB (fun ts => some (ts.map (fun t => [(t.length : Int)])))
          ⟨true, "<a>  </a>".toList, 10⟩ 1 1).1
        [11] 1
      = [⟨['a'], [], "section".toList, []⟩] :=
  ⟨by decide, by decide⟩

/-- C9 amended: a chunk whose content yields zero sentences longer than
20 characters after trimming falls back to the first 200 characters of
the raw chunk content, which is non-empty whenever the chunk content is
non-empty (an empty-content chunk, however, produces an empty fallback
and is dropped). -/
theorem c9_fallback (encode : List Str → Option (List (List Int)))
    (chunkText queryText : Str)
    (h : ((splitSentences chunkText).map strip).filter (fun s => s.length > 20) = []) :
    extractRelevantSentences encode chunkText queryText 3 = some (chunkText.take 200)
    ∧ (chunkText ≠ [] → chunkText.take 200 ≠ []) := by
  constructor
  · unfold extractRelevantSentences
    rw [h]
    simp
  · intro hne
    cases chunkText with
    | nil => exact absurd rfl hne
    | cons c r => simp [List.take]

/-- C9 witness: a short chunk with no long sentences falls back to its
first 200 characters. -/
theorem c9_fallback_witness :
    extractRelevantSentences (fun _ => none) "tiny".toList "query text".toList 3
      = some ("tiny".toList.take 200)
    ∧ ("tiny".toList ≠ [] → "tiny".toList.take 200 ≠ []) :=
  c9_fallback (fun _ => none) "tiny".toList "query text".toList (by decide)

theorem searchIndex_length (vecs : List (List Int)) (q : List Int) (k : Nat) :
    (searchIndex vecs q k).length = min k vecs.length := by
  unfold searchIndex
  rw [List.length_map, List.length_take, List.length_insertionSort, List.length_map,
    List.length_range]

theorem searchIndex_mem_lt {vecs : List (List Int)} {q : List Int} {k : Nat} :
    ∀ i ∈ searchIndex vecs q k, i < vecs.length := by
  intro i hi
  unfold searchIndex at hi
  obtain ⟨p, hp, hpi⟩ := List.mem_map.mp hi
  have hpS := List.mem_of_mem_take hp
  rw [List.mem_insertionSort] at hpS
  obtain ⟨j, hj, hpj⟩ := List.mem_map.mp hpS
  rw [List.mem_range] at hj
  rw [← hpi, ← hpj]
  exact hj

theorem searchIndex_snd_eq {vecs : List (List Int)} {q : List Int} {k : Nat} {p : Nat × Int}
    (hp : p ∈ (List.insertionSort pairRel ((List.range vecs.length).map
      (fun i => (i, sqDist (vecs.getD i []) q)))).take k) :
    p.2 = sqDist (vecs.getD p.1 []) q := by
  have hpS := List.mem_of_mem_take hp
  rw [List.mem_insertionSort] at hpS
  obtain ⟨j, hj, hpj⟩ := List.mem_map.mp hpS
  rw [← hpj]

theorem searchIndex_sorted (vecs : List (List Int)) (q : List Int) (k : Nat) :
    ((searchIndex vecs q k).map (fun i => sqDist (vecs.getD i []) q)).Sorted
      (fun a b => a ≤ b) := by
  unfold searchIndex
  rw [List.map_map]
  have hS : (List.insertionSort pairRel ((List.range vecs.length).map
      (fun i => (i, sqDist (vecs.getD i []) q)))).Sorted pairRel :=
    List.sorted_insertionSort pairRel _
  have htake := List.Pairwise.sublist (List.take_sublist k _) hS
  rw [List.Sorted, List.pairwise_map]
  refine htake.imp_of_mem ?_
  intro a b ha hb hr
  have ha2 := searchIndex_snd_eq ha
  have hb2 := searchIndex_snd_eq hb
  unfold pairRel at hr
  simp only [Function.comp]
  omega

/-- C1: index search returns exactly `min(k, number of indexed vectors)`
positions, each a valid position (below the number of indexed vectors,
hence below the chunk count whenever the generation is consistent),
ordered by non-decreasing squared Euclidean distance to the query;
searching an empty index returns an empty result, and the retrieval step
of `get_relevant_guidelines` never yields more chunks than are
indexed. -/
theorem c1_search (vecs : List (List Int)) (q : List Int) (k : Nat) (s : KB)
    (hcons : (s.index.getD []).length = s.chunks.length) :
    (searchIndex vecs q k).length = min k vecs.length
    ∧ (∀ i ∈ searchIndex vecs q k, i < vecs.length)
    ∧ ((searchIndex vecs q k).map (fun i => sqDist (vecs.getD i []) q)).Sorted
        (fun a b => a ≤ b)
    ∧ (vecs = [] → searchIndex vecs q k = [])
    ∧ (∀ i ∈ searchIndex (s.index.getD []) q k, i < s.chunks.length)
    ∧ (retrieveChunks s q k).length ≤ (s.index.getD []).length := by
  refine ⟨searchIndex_length vecs q k, searchIndex_mem_lt, searchIndex_sorted vecs q k,
    ?_, ?_, ?_⟩
  · intro h
    subst h
    simp [searchIndex]
  · intro i hi
    have h := searchIndex_mem_lt i hi
    rw [hcons] at h
    exact h
  · unfold retrieveChunks
    rw [List.length_map, searchIndex_length]
    omega

/-- C1 witness: a concrete two-vector index searched with `k = 5`. -/
theorem c1_search_witness :
    (searchIndex [[0], [2]] [1] 5).length = min 5 2
    ∧ (∀ i ∈ searchIndex [[0], [2]] [1] 5, i < 2) :=
  ⟨(c1_search [[0], [2]] [1] 5 ⟨[], none, none, none, 1, 1⟩ (by decide)).1,
   (c1_search [[0], [2]] [1] 5 ⟨[], none, none, none, 1, 1⟩ (by decide)).2.1⟩

theorem argsort_perm_range (xs : List Int) :
    (argsortStable xs).Perm (List.range xs.length) := by
  have h := (List.perm_insertionSort pairRel xs.enum).map Prod.fst
  rwa [List.enum_map_fst] at h

theorem argsort_length (xs : List Int) : (argsortStable xs).length = xs.length := by
  have h := (argsort_perm_range xs).length_eq
  rwa [List.length_range] at h

theorem argsort_nodup (xs : List Int) : (argsortStable xs).Nodup :=
  ((argsort_perm_range xs).nodup_iff).mpr (List.nodup_range _)

theorem argsort_mem_lt {xs : List Int} {i : Nat} (h : i ∈ argsortStable xs) :
    i < xs.length := by
  have h2 := (argsort_perm_range xs).mem_iff.mp h
  rwa [List.mem_range] at h2

theorem getD_of_getElem? {xs : List Int} {i : Nat} {v : Int} (h : xs[i]? = some v) :
    xs.getD i 0 = v := by
  rw [List.getD_eq_getElem?_getD, h]
  rfl

/-- Positions in the dropped (high) part of a stable argsort have values
at least as large as positions in the taken (low) part. -/
theorem argsort_split {xs : List Int} {m : Nat} {i j : Nat}
    (hi : i ∈ (argsortStable xs).drop m)
    (hj : j ∈ (argsortStable xs).take m) :
    xs.getD j 0 ≤ xs.getD i 0 := by
  unfold argsortStable at hi hj
  rw [← List.map_drop] at hi
  rw [← List.map_take] at hj
  obtain ⟨pi, hpi, hpieq⟩ := List.mem_map.mp hi
  obtain ⟨pj, hpj, hpjeq⟩ := List.mem_map.mp hj
  have hsorted : (List.insertionSort pairRel xs.enum).Pairwise pairRel :=
    List.sorted_insertionSort pairRel xs.enum
  have hsplit := (List.pairwise_append.mp
    (by rw [List.take_append_drop]; exact hsorted)).2.2 pj hpj pi hpi
  have hpiS := List.mem_of_mem_drop hpi
  have hpjS := List.mem_of_mem_take hpj
  rw [List.mem_insertionSort, List.mem_enum_iff_getElem?] at hpiS hpjS
  have hvi := getD_of_getElem? hpiS
  have hvj := getD_of_getElem? hpjS
  rw [← hpieq, ← hpjeq, hvi, hvj]
  unfold pairRel at hsplit
  omega

/-- C7: for a chunk with more than 3 sentences longer than 20 characters
after trimming, the re-ranking step outputs exactly 3 sentences, in
strictly ascending original position, each with dot-product score at
least that of every unselected sentence, joined with `". "` and a
trailing period. -/
theorem c7_rerank (encode : List Str → Option (List (List Int)))
    (chunkText queryText : Str) (sents : List Str) (se : List (List Int)) (qv : List Int)
    (hs : sents = ((splitSentences chunkText).map strip).filter (fun s => s.length > 20))
    (hn : 3 < sents.length)
    (hse : encode sents = some se)
    (hq : encode [queryText] = some [qv])
    (hlen : se.length = sents.length) :
    ∃ idxs : List Nat,
      extractRelevantSentences encode chunkText queryText 3
        = some (List.intercalate ('.' :: ' ' :: [])
            (idxs.map (fun i => sents.getD i [])) ++ ['.'])
      ∧ idxs.length = 3
      ∧ idxs.Sorted (fun a b => a < b)
      ∧ (∀ i ∈ idxs, i < sents.length)
      ∧ (∀ i ∈ idxs, ∀ j, j < sents.length → j ∉ idxs →
          dotProd (se.getD j []) qv ≤ dotProd (se.getD i []) qv) := by
  have hne : sents ≠ [] := by
    intro h0
    rw [h0] at hn
    simp at hn
  have hnle : ¬ (sents.length ≤ 3) := by omega
  have hsimslen : (se.map (fun v => dotProd v qv)).length = sents.length := by
    rw [List.length_map, hlen]
  have holen : (argsortStable (se.map (fun v => dotProd v qv))).length = sents.length := by
    rw [argsort_length, hsimslen]
  refine ⟨List.insertionSort (fun a b => a ≤ b)
    ((argsortStable (se.map (fun v => dotProd v qv))).drop
      ((argsortStable (se.map (fun v => dotProd v qv))).length - 3)), ?_, ?_, ?_, ?_, ?_⟩
  case _ =>
    unfold extractRelevantSentences
    rw [← hs, if_neg hne, if_neg hnle, hse, hq]
    rfl
  case _ =>
    rw [List.length_insertionSort, List.length_drop]
    omega
  case _ =>
    refine List.Sorted.lt_of_le (List.sorted_insertionSort _ _) ?_
    exact ((List.perm_insertionSort _ _).nodup_iff).mpr
      (List.Nodup.sublist (List.drop_sublist _ _) (argsort_nodup _))
  case _ =>
    intro i hi
    have h1 := (List.perm_insertionSort (fun a b => a ≤ b) _).mem_iff.mp hi
    have h2 := argsort_mem_lt (List.mem_of_mem_drop h1)
    rwa [hsimslen] at h2
  case _ =>
    intro i hi j hjlt hjn
    have hitop := (List.perm_insertionSort (fun a b => a ≤ b) _).mem_iff.mp hi
    have hjorder : j ∈ argsortStable (se.map (fun v => dotProd v qv)) :=
      (argsort_perm_range _).mem_iff.mpr (List.mem_range.mpr (by rwa [hsimslen]))
    have hjtop : j ∉ (argsortStable (se.map (fun v => dotProd v qv))).drop
        ((argsortStable (se.map (fun v => dotProd v qv))).length - 3) := by
      intro hc
      exact hjn ((List.perm_insertionSort (fun a b => a ≤ b) _).mem_iff.mpr hc)
    have hjtake : j ∈ (argsortStable (se.map (fun v => dotProd v qv))).take
        ((argsortStable (se.map (fun v => dotProd v qv))).length - 3) := by
      have hsplit2 : j ∈ (argsortStable (se.map (fun v => dotProd v qv))).take
          ((argsortStable (se.map (fun v => dotProd v qv))).length - 3)
          ++ (argsortStable (se.map (fun v => dotProd v qv))).drop
          ((argsortStable (se.map (fun v => dotProd v qv))).length - 3) := by
        rw [List.take_append_drop]
        exact hjorder
      rcases List.mem_append.mp hsplit2 with h | h
      · exact h
      · exact absurd h hjtop
    have hsplit := argsort_split hitop hjtake
    have hgi : (se.map (fun v => dotProd v qv)).getD i 0 = dotProd (se.getD i []) qv := by
      have hilt : i < se.length := by
        rw [hlen]
        have h1 := argsort_mem_lt (List.mem_of_mem_drop hitop)
        rwa [hsimslen] at h1
      rw [List.getD_eq_getElem?_getD, List.getElem?_map,
        List.getElem?_eq_getElem hilt, List.getD_eq_getElem se [] hilt]
      rfl
    have hgj : (se.map (fun v => dotProd v qv)).getD j 0 = dotProd (se.getD j []) qv := by
      have hjlt2 : j < se.length := by rwa [hlen]
      rw [List.getD_eq_getElem?_getD, List.getElem?_map,
        List.getElem?_eq_getElem hjlt2, List.getD_eq_getElem se [] hjlt2]
      rfl
    rw [hgi, hgj] at hsplit
    exact hsplit

/-- C7 witness: a concrete four-sentence chunk re-ranked with a
length-based embedder produces a result. -/
theorem c7_rerank_witness :
    (extractRelevantSentences (fun ts => some (ts.map (fun t => [(t.length : Int)])))
      "aaaaaaaaaaaaaaaaaaaaaaaaa. bbbbbbbbbbbbbbbbbbbbbb. cccccccccccccccccccccccccccccc. ddddddddddddddddddddd".toList
      "q".toList 3).isSome = true := by
  obtain ⟨idxs, h1, -, -, -, -⟩ := c7_rerank
    (fun ts => some (ts.map (fun t => [(t.length : Int)])))
    "aaaaaaaaaaaaaaaaaaaaaaaaa. bbbbbbbbbbbbbbbbbbbbbb. cccccccccccccccccccccccccccccc. ddddddddddddddddddddd".toList
    "q".toList
    ["aaaaaaaaaaaaaaaaaaaaaaaaa".toList, "bbbbbbbbbbbbbbbbbbbbbb".toList,
     "cccccccccccccccccccccccccccccc".toList, "ddddddddddddddddddddd".toList]
    [[25], [22], [30], [21]] [1]
    (by decide) (by decide) (by decide) (by decide) (by decide)
  rw [h1]
  rfl

/-- An annotated view of the parts list built by `_format_as_xml`,
distinguishing tags from entry contents (two different entries may have
textually identical parts, so positions are tracked structurally). -/
inductive XPart where
  | outerOpen : XPart
  | outerClose : XPart
  | secOpen (s : Str) : XPart
  | secClose (s : Str) : XPart
  | entry (g : Guideline) : XPart
deriving DecidableEq, Repr

/-- The text of an annotated part, as `_format_as_xml` appends it. -/
def renderPart : XPart → Str
  | XPart.outerOpen => "<style_guidelines>".toList
  | XPart.outerClose => "\n</style_guidelines>".toList
  | XPart.secOpen s => secOpenTag s
  | XPart.secClose s => secCloseTag s
  | XPart.entry g => g.content

/-- The annotated body of the formatter loop: an opening tag at each
first-seen section, then the entry itself. -/
def bodyParts (seen : List Str) : List Guideline → List XPart
  | [] => []
  | g :: gs =>
    if g.sect ∈ seen then XPart.entry g :: bodyParts seen gs
    else XPart.secOpen g.sect :: XPart.entry g :: bodyParts (seen ++ [g.sect]) gs

/-- The set of seen sections after the formatter loop, in first-seen
order. -/
def seenFrom (seen : List Str) : List Guideline → List Str
  | [] => seen
  | g :: gs => seenFrom (if g.sect ∈ seen then seen else seen ++ [g.sect]) gs

theorem formatFold_eq (gs : List Guideline) : ∀ ps seen : List Str,
    gs.foldl formatStep (ps, seen)
      = (ps ++ (bodyParts seen gs).map renderPart, seenFrom seen gs) := by
  induction gs with
  | nil =>
    intro ps seen
    simp [bodyParts, seenFrom]
  | cons g gs ih =>
    intro ps seen
    rw [List.foldl_cons]
    by_cases hm : g.sect ∈ seen
    · rw [show formatStep (ps, seen) g = (ps ++ [g.content], seen) by
        simp [formatStep, hm]]
      rw [ih]
      simp [bodyParts, seenFrom, hm, renderPart]
    · rw [show formatStep (ps, seen) g
          = (ps ++ [secOpenTag g.sect] ++ [g.content], seen ++ [g.sect]) by
        simp [formatStep, hm]]
      rw [ih]
      simp [bodyParts, seenFrom, hm, renderPart]

theorem formatParts_eq (gs : List Guideline) :
    formatParts gs = (XPart.outerOpen :: (bodyParts [] gs
      ++ (seenFrom [] gs).map XPart.secClose ++ [XPart.outerClose])).map renderPart := by
  unfold formatParts
  rw [formatFold_eq]
  simp [renderPart, List.map_map, Function.comp]

theorem mem_seenFrom (gs : List Guideline) : ∀ (seen : List Str) (s : Str),
    s ∈ seenFrom seen gs ↔ s ∈ seen ∨ s ∈ gs.map Guideline.sect := by
  induction gs with
  | nil =>
    intro seen s
    simp [seenFrom]
  | cons g gs ih =>
    intro seen s
    unfold seenFrom
    by_cases hm : g.sect ∈ seen
    · rw [if_pos hm, ih]
      constructor
      · intro h
        rcases h with h | h
        · exact Or.inl h
        · exact Or.inr (List.mem_cons_of_mem _ h)
      · intro h
        rcases h with h | h
        · exact Or.inl h
        · rcases List.mem_cons.mp h with h | h
          · exact Or.inl (h ▸ hm)
          · exact Or.inr h
    · rw [if_neg hm, ih]
      rw [List.mem_append, List.mem_singleton, List.map_cons, List.mem_cons]
      tauto

theorem nodup_seenFrom (gs : List Guideline) : ∀ seen : List Str,
    seen.Nodup → (seenFrom seen gs).Nodup := by
  induction gs with
  | nil =>
    intro seen h
    exact h
  | cons g gs ih =>
    intro seen h
    unfold seenFrom
    by_cases hm : g.sect ∈ seen
    · rw [if_pos hm]
      exact ih seen h
    · rw [if_neg hm]
      refine ih _ ?_
      simp [List.nodup_append, h, hm]

theorem bodyParts_shape (gs : List Guideline) : ∀ seen : List Str,
    ∀ p ∈ bodyParts seen gs, (∃ t, p = XPart.secOpen t) ∨ ∃ g, p = XPart.entry g := by
  induction gs with
  | nil =>
    intro seen p hp
    simp [bodyParts] at hp
  | cons g gs ih =>
    intro seen p hp
    unfold bodyParts at hp
    by_cases hm : g.sect ∈ seen
    · rw [if_pos hm] at hp
      rcases List.mem_cons.mp hp with h | h
      · exact Or.inr ⟨g, h⟩
      · exact ih seen p h
    · rw [if_neg hm] at hp
      rcases List.mem_cons.mp hp with h | h
      · exact Or.inl ⟨g.sect, h⟩
      · rcases List.mem_cons.mp h with h2 | h2
        · exact Or.inr ⟨g, h2⟩
        · exact ih _ p h2

theorem count_secOpen_bodyParts (gs : List Guideline) : ∀ (seen : List Str) (s : Str),
    (bodyParts seen gs).count (XPart.secOpen s)
      = if s ∈ seen then 0 else if s ∈ gs.map Guideline.sect then 1 else 0 := by
  induction gs with
  | nil =>
    intro seen s
    simp [bodyParts]
  | cons g gs ih =>
    intro seen s
    unfold bodyParts
    by_cases hm : g.sect ∈ seen
    · rw [if_pos hm, List.count_cons, ih]
      have hne : (XPart.entry g = XPart.secOpen s) = False := by simp
      by_cases hs : s ∈ seen
      · simp [hs]
      · have hsg : s ≠ g.sect := fun he => hs (he ▸ hm)
        simp [hs, hsg]
    · rw [if_neg hm, List.count_cons, List.count_cons, ih]
      by_cases hsg : s = g.sect
      · subst hsg
        simp [hm, List.mem_append]
      · by_cases hs : s ∈ seen
        · simp [hs, hsg, List.mem_append, Ne.symm hsg]
        · simp [hs, hsg, List.mem_append, Ne.symm hsg]

theorem bodyParts_decomp (gs : List Guideline) : ∀ (seen : List Str) (s : Str),
    s ∉ seen → s ∈ gs.map Guideline.sect →
    ∃ P g Q, bodyParts seen gs = P ++ XPart.secOpen s :: XPart.entry g :: Q
      ∧ g.sect = s ∧ ∀ g', XPart.entry g' ∈ P → g'.sect ≠ s := by
  induction gs with
  | nil =>
    intro seen s _ hmem
    simp at hmem
  | cons g gs ih =>
    intro seen s hnotseen hmem
    rw [List.map_cons, List.mem_cons] at hmem
    unfold bodyParts
    by_cases hm : g.sect ∈ seen
    · rw [if_pos hm]
      have hs_ne : s ≠ g.sect := fun he => hnotseen (he ▸ hm)
      have hmem' : s ∈ gs.map Guideline.sect := by
        rcases hmem with h | h
        · exact absurd h hs_ne
        · exact h
      obtain ⟨P, g0, Q, hP, hg0, hPno⟩ := ih seen s hnotseen hmem'
      refine ⟨XPart.entry g :: P, g0, Q, by rw [hP]; rfl, hg0, ?_⟩
      intro g' hg'
      rcases List.mem_cons.mp hg' with h | h
      · have hgg : g' = g := by
          cases h
          rfl
        rw [hgg]
        exact fun he => hs_ne (he.symm)
      · exact hPno g' h
    · rw [if_neg hm]
      by_cases hsg : s = g.sect
      · subst hsg
        exact ⟨[], g, bodyParts (seen ++ [g.sect]) gs, rfl, rfl, by intro g' h; simp at h⟩
      · have hmem' : s ∈ gs.map Guideline.sect := by
          rcases hmem with h | h
          · exact absurd h hsg
          · exact h
        have hnot' : s ∉ seen ++ [g.sect] := by
          rw [List.mem_append, List.mem_singleton]
          intro h
          rcases h with h | h
          · exact hnotseen h
          · exact hsg h
        obtain ⟨P, g0, Q, hP, hg0, hPno⟩ := ih _ s hnot' hmem'
        refine ⟨XPart.secOpen g.sect :: XPart.entry g :: P, g0, Q, by rw [hP]; rfl, hg0, ?_⟩
        intro g' hg'
        rcases List.mem_cons.mp hg' with h | h
        · cases h
        · rcases List.mem_cons.mp h with h2 | h2
          · have hgg : g' = g := by
              cases h2
              rfl
            rw [hgg]
            exact fun he => hsg (he.symm)
          · exact hPno g' h2

/-- C8: the formatter's parts list is the outer opening tag, a body of
section-opening tags and entry contents, all closing tags (one per seen
section, the seen list duplicate-free so each is closed exactly once),
and the outer closing tag; for every
section identifier occurring in the input, exactly one opening tag is
emitted, placed immediately before that section's first entry (no
earlier entry of that section exists), and since every closing tag
follows the whole body, all entries of a section lie between its opening
and closing tags. -/
theorem c8_format (gs : List Guideline) (s : Str) (hmem : s ∈ gs.map Guideline.sect) :
    formatParts gs = (XPart.outerOpen :: (bodyParts [] gs
        ++ (seenFrom [] gs).map XPart.secClose ++ [XPart.outerClose])).map renderPart
    ∧ (bodyParts [] gs).count (XPart.secOpen s) = 1
    ∧ s ∈ seenFrom [] gs
    ∧ (seenFrom [] gs).Nodup
    ∧ (∀ p ∈ bodyParts [] gs, (∃ t, p = XPart.secOpen t) ∨ ∃ g, p = XPart.entry g)
    ∧ ∃ P g Q, bodyParts [] gs = P ++ XPart.secOpen s :: XPart.entry g :: Q
        ∧ g.sect = s ∧ ∀ g', XPart.entry g' ∈ P → g'.sect ≠ s := by
  refine ⟨formatParts_eq gs, ?_, ?_, nodup_seenFrom gs [] List.nodup_nil,
    bodyParts_shape gs [], bodyParts_decomp gs [] s (by simp) hmem⟩
  · rw [count_secOpen_bodyParts]
    simp [hmem]
  · exact (mem_seenFrom gs [] s).mpr (Or.inr hmem)

/-- C8 witness: three entries with a repeated, non-contiguous section
identifier still open that section's tag exactly once. -/
theorem c8_format_witness :
    "a".toList ∈ ([⟨"a".toList, "one".toList, "section".toList⟩,
      ⟨"b".toList, "two".toList, "section".toList⟩,
      ⟨"a".toList, "three".toList, "section".toList⟩] : List Guideline).map Guideline.sect
    ∧ (bodyParts [] [⟨"a".toList, "one".toList, "section".toList⟩,
        ⟨"b".toList, "two".toList, "section".toList⟩,
        ⟨"a".toList, "three".toList, "section".toList⟩]).count
        (XPart.secOpen "a".toList) = 1 :=
  ⟨by decide,
   (c8_format [⟨"a".toList, "one".toList, "section".toList⟩,
      ⟨"b".toList, "two".toList, "section".toList⟩,
      ⟨"a".toList, "three".toList, "section".toList⟩] "a".toList (by decide)).2.1⟩

/-- A well-formed tagged region of the input document: `<tag>content</tag>`. -/
structure Region where
  tag : Str
  content : Str
deriving DecidableEq, Repr

/-- The text of one tagged region. -/
def renderRegion (r : Region) : Str :=
  '<' :: (r.tag ++ '>' :: (r.content ++ ('<' :: '/' :: (r.tag ++ ['>']))))

/-- A document as filler text followed by tagged regions, each with its
trailing filler. -/
def renderDoc (f0 : Str) : List (Region × Str) → Str
  | [] => f0
  | (r, fill) :: rs => f0 ++ (renderRegion r ++ renderDoc fill rs)

theorem takeWhile_all_append (p : Char → Bool) (tag l : Str)
    (h : ∀ c ∈ tag, p c = true) (h2 : p '>' = false) :
    (tag ++ '>' :: l).takeWhile p = tag := by
  induction tag with
  | nil => simp [List.takeWhile_cons, h2]
  | cons a t ih =>
    simp only [List.cons_append, List.takeWhile_cons]
    rw [if_pos (h a (List.mem_cons_self a t))]
    rw [ih (fun c hc => h c (List.mem_cons_of_mem _ hc))]

theorem isPrefixOf_self_append (p l : Str) : p.isPrefixOf (p ++ l) = true := by
  induction p with
  | nil => simp [List.isPrefixOf]
  | cons a t ih => simp [List.isPrefixOf, ih]

theorem splitAtPat_boundary (p0 : Char) (pr content rest : Str)
    (h : ∀ c ∈ content, c ≠ p0) :
    splitAtPat (p0 :: pr) (content ++ ((p0 :: pr) ++ rest)) = some (content, rest) := by
  induction content with
  | nil =>
    simp only [List.nil_append, List.cons_append]
    rw [splitAtPat]
    rw [if_pos (by
      have := isPrefixOf_self_append (p0 :: pr) rest
      simp only [List.cons_append] at this
      exact this)]
    have hdrop := List.drop_left (p0 :: pr) rest
    simp only [List.cons_append] at hdrop
    rw [hdrop]
  | cons c ct ih =>
    have hc : c ≠ p0 := h c (List.mem_cons_self c ct)
    simp only [List.cons_append]
    rw [splitAtPat]
    rw [if_neg (by
      simp only [List.isPrefixOf]
      intro hcontra
      rw [Bool.and_eq_true, beq_iff_eq] at hcontra
      exact hc hcontra.1.symm)]
    have hct := ih (fun x hx => h x (List.mem_cons_of_mem _ hx))
    simp only [List.cons_append] at hct
    rw [hct]

theorem tagAt_region (tag content rest : Str)
    (htag : tag ≠ []) (hw : ∀ c ∈ tag, isWordChar c = true)
    (hc : ∀ c ∈ content, c ≠ '<') :
    tagAt (tag ++ '>' :: (content ++ (('<' :: '/' :: (tag ++ ['>'])) ++ rest)))
      = some ((tag, content), rest) := by
  have htw : (tag ++ '>' :: (content ++ (('<' :: '/' :: (tag ++ ['>'])) ++ rest))).takeWhile
      isWordChar = tag :=
    takeWhile_all_append isWordChar tag _ hw (by decide)
  unfold tagAt
  rw [htw]
  have hdrop := List.drop_left tag ('>' :: (content ++ (('<' :: '/' :: (tag ++ ['>'])) ++ rest)))
  rw [hdrop]
  rw [if_pos ⟨htag, rfl⟩]
  have hsplit := splitAtPat_boundary '<' ('/' :: (tag ++ ['>'])) content rest hc
  simp only [List.tail_cons]
  rw [hsplit]

theorem extF_irrel : ∀ f1 f2 l, l.length ≤ f1 → l.length ≤ f2 →
    extractTagsAuxF f1 l = extractTagsAuxF f2 l := by
  intro f1
  induction f1 with
  | zero =>
    intro f2 l h1 _
    have hl : l = [] := List.eq_nil_of_length_eq_zero (Nat.le_zero.mp h1)
    subst hl
    cases f2 <;> rfl
  | succ f ih =>
    intro f2 l h1 h2
    cases l with
    | nil => cases f2 <;> rfl
    | cons c rest =>
      cases f2 with
      | zero => simp at h2
      | succ f2' =>
        simp only [extractTagsAuxF]
        simp only [List.length_cons] at h1 h2
        by_cases hc : c = '<'
        · rw [if_pos hc, if_pos hc]
          cases htag : tagAt rest with
          | none => exact ih f2' rest (by omega) (by omega)
          | some pr =>
            obtain ⟨tc, rest2⟩ := pr
            have hlt := tagAt_length htag
            simp only [ih f2' rest2 (by omega : rest2.length ≤ f) (by omega : rest2.length ≤ f2')]
        · rw [if_neg hc, if_neg hc]
          exact ih f2' rest (by omega) (by omega)

theorem extF_fill : ∀ (fill : Str) (f : Nat) (x : Str), (∀ c ∈ fill, c ≠ '<') →
    extractTagsAuxF (fill.length + f) (fill ++ x) = extractTagsAuxF f x := by
  intro fill
  induction fill with
  | nil =>
    intro f x _
    simp
  | cons c ft ih =>
    intro f x h
    have hc : c ≠ '<' := h c (List.mem_cons_self c ft)
    have harith : (c :: ft).length + f = (ft.length + f) + 1 := by
      simp only [List.length_cons]
      omega
    rw [harith]
    simp only [List.cons_append, extractTagsAuxF, if_neg hc]
    exact ih f x (fun d hd => h d (List.mem_cons_of_mem _ hd))

theorem extF_region (tag content rest : Str) (f : Nat)
    (htag : tag ≠ []) (hw : ∀ c ∈ tag, isWordChar c = true)
    (hc : ∀ c ∈ content, c ≠ '<') :
    extractTagsAuxF (f + 1)
        ('<' :: (tag ++ '>' :: (content ++ (('<' :: '/' :: (tag ++ ['>'])) ++ rest))))
      = (tag, content) :: extractTagsAuxF f rest := by
  simp only [extractTagsAuxF]
  rw [tagAt_region tag content rest htag hw hc]
  simp

theorem extF_renderDoc : ∀ (rs : List (Region × Str)) (f0 : Str) (fuel : Nat),
    (renderDoc f0 rs).length ≤ fuel →
    (∀ c ∈ f0, c ≠ '<') →
    (∀ rf ∈ rs, (rf.1.tag ≠ [] ∧ (∀ c ∈ rf.1.tag, isWordChar c = true)
      ∧ (∀ c ∈ rf.1.content, c ≠ '<')) ∧ (∀ c ∈ rf.2, c ≠ '<')) →
    extractTagsAuxF fuel (renderDoc f0 rs)
      = rs.map (fun rf => (rf.1.tag, rf.1.content)) := by
  intro rs
  induction rs with
  | nil =>
    intro f0 fuel hf hf0 _
    simp only [renderDoc] at hf ⊢
    rw [extF_irrel fuel f0.length f0 hf (le_refl _)]
    have h := extF_fill f0 0 [] hf0
    simpa using h
  | cons rf rs ih =>
    intro f0 fuel hf hf0 hwf
    obtain ⟨r, fill⟩ := rf
    obtain ⟨⟨htag, hw, hc⟩, hfill⟩ := hwf (r, fill) (List.mem_cons_self _ _)
    have hwf' : ∀ rf ∈ rs, (rf.1.tag ≠ [] ∧ (∀ c ∈ rf.1.tag, isWordChar c = true)
        ∧ (∀ c ∈ rf.1.content, c ≠ '<')) ∧ (∀ c ∈ rf.2, c ≠ '<') :=
      fun rf hrf => hwf rf (List.mem_cons_of_mem _ hrf)
    show extractTagsAuxF fuel (f0 ++ (renderRegion r ++ renderDoc fill rs)) = _
    rw [extF_irrel fuel (f0.length + (renderRegion r ++ renderDoc fill rs).length)
      (f0 ++ (renderRegion r ++ renderDoc fill rs))
      (by exact hf) (by rw [List.length_append])]
    rw [extF_fill f0 (renderRegion r ++ renderDoc fill rs).length
      (renderRegion r ++ renderDoc fill rs) hf0]
    have hshape : renderRegion r ++ renderDoc fill rs
        = '<' :: (r.tag ++ '>' :: (r.content
            ++ (('<' :: '/' :: (r.tag ++ ['>'])) ++ renderDoc fill rs))) := by
      unfold renderRegion
      simp [List.append_assoc]
    rw [hshape, List.length_cons]
    rw [extF_region r.tag r.content (renderDoc fill rs) _ htag hw hc]
    have hlenrest : (renderDoc fill rs).length
        ≤ (r.tag ++ '>' :: (r.content
            ++ (('<' :: '/' :: (r.tag ++ ['>'])) ++ renderDoc fill rs))).length := by
      simp [List.length_append]
      omega
    rw [extF_irrel _ (renderDoc fill rs).length (renderDoc fill rs) hlenrest (le_refl _)]
    rw [ih fill (renderDoc fill rs).length (le_refl _) hfill hwf']
    rfl

theorem extractTags_renderDoc (f0 : Str) (rs : List (Region × Str))
    (hf0 : ∀ c ∈ f0, c ≠ '<')
    (hwf : ∀ rf ∈ rs, (rf.1.tag ≠ [] ∧ (∀ c ∈ rf.1.tag, isWordChar c = true)
      ∧ (∀ c ∈ rf.1.content, c ≠ '<')) ∧ (∀ c ∈ rf.2, c ≠ '<')) :
    extractTags (renderDoc f0 rs) = rs.map (fun rf => (rf.1.tag, rf.1.content)) :=
  extF_renderDoc rs f0 _ (le_refl _) hf0 hwf

theorem dictFold_nodup : ∀ (pairs d : List (Str × Str)),
    (pairs.map Prod.fst).Nodup →
    (∀ p ∈ pairs, ∀ q ∈ d, q.1 ≠ p.1) →
    pairs.foldl (fun d tc => dictInsert d tc.1 tc.2) d = d ++ pairs := by
  intro pairs
  induction pairs with
  | nil =>
    intro d _ _
    simp
  | cons p ps ih =>
    intro d hnd hdisj
    rw [List.foldl_cons]
    have hnot : ¬ (d.any (fun q => q.1 == p.1) = true) := by
      rw [List.any_eq_true]
      rintro ⟨q, hq, hbeq⟩
      rw [beq_iff_eq] at hbeq
      exact hdisj p (List.mem_cons_self _ _) q hq hbeq
    have hins : dictInsert d p.1 p.2 = d ++ [p] := by
      unfold dictInsert
      rw [if_neg hnot]
    rw [hins]
    rw [List.map_cons] at hnd
    rw [ih (d ++ [p]) hnd.of_cons ?_]
    · simp
    · intro q hq r hr
      rcases List.mem_append.mp hr with h | h
      · exact hdisj q (List.mem_cons_of_mem _ hq) r h
      · rw [List.mem_singleton] at h
        subst h
        intro he
        exact (List.nodup_cons.mp hnd).1 (he ▸ List.mem_map_of_mem Prod.fst hq)

theorem extractSections_renderDoc (f0 : Str) (rs : List (Region × Str))
    (hf0 : ∀ c ∈ f0, c ≠ '<')
    (hwf : ∀ rf ∈ rs, (rf.1.tag ≠ [] ∧ (∀ c ∈ rf.1.tag, isWordChar c = true)
      ∧ (∀ c ∈ rf.1.content, c ≠ '<')) ∧ (∀ c ∈ rf.2, c ≠ '<'))
    (hnd : (rs.map (fun rf => rf.1.tag)).Nodup) :
    extractSections (renderDoc f0 rs) = rs.map (fun rf => (rf.1.tag, rf.1.content)) := by
  unfold extractSections
  rw [extractTags_renderDoc f0 rs hf0 hwf]
  rw [dictFold_nodup _ [] ?_ (by simp)]
  · simp
  · rw [List.map_map]
    exact hnd

/-- The chunks `_load_and_chunk` produces for one section: the section
chunk followed by the section's sub-chunks. -/
def chunksFor (nc : Str × Str) : List Chunk :=
  { sect := nc.1, content := strip nc.2, kind := "section".toList,
    original := strip nc.2 } :: chunkSection nc.1 nc.2

theorem foldl_append_flatten {α β : Type} (g : α → List β) :
    ∀ (l : List α) (init : List β),
    l.foldl (fun acc x => acc ++ g x) init = init ++ (l.map g).flatten := by
  intro l
  induction l with
  | nil =>
    intro init
    simp
  | cons x xs ih =>
    intro init
    rw [List.foldl_cons, ih]
    simp

theorem loadAndChunk_eq (content : Str) :
    loadAndChunk content = ((extractSections content).map chunksFor).flatten := by
  unfold loadAndChunk
  show List.foldl (fun acc nc => acc ++ chunksFor nc) [] (extractSections content) = _
  rw [foldl_append_flatten chunksFor (extractSections content) []]
  rfl

theorem foldl_preserve {α β : Type} (P : β → Prop) (f : List β → α → List β)
    (hstep : ∀ acc x, (∀ c ∈ acc, P c) → ∀ c ∈ f acc x, P c) :
    ∀ (l : List α) (init : List β), (∀ c ∈ init, P c) → ∀ c ∈ l.foldl f init, P c := by
  intro l
  induction l with
  | nil =>
    intro init hinit c hc
    exact hinit c hc
  | cons x xs ih =>
    intro init hinit c hc
    rw [List.foldl_cons] at hc
    exact ih (f init x) (hstep init x hinit) c hc

theorem chunkSection_all (n s : Str) :
    ∀ c ∈ chunkSection n s, c.sect = n
      ∧ (c.kind = "sub-item".toList ∨ c.kind = "paragraph".toList) := by
  unfold chunkSection
  refine foldl_preserve _ _ ?_ (splitParas s) _
    (foldl_preserve _ _ ?_ (findBullets s) [] (by simp))
  · intro acc x hacc c hc
    split at hc
    · rcases List.mem_append.mp hc with h | h
      · exact hacc c h
      · rw [List.mem_singleton] at h
        subst h
        exact ⟨rfl, Or.inr rfl⟩
    · exact hacc c hc
  · intro acc x hacc c hc
    split at hc
    · rcases List.mem_append.mp hc with h | h
      · exact hacc c h
      · rw [List.mem_singleton] at h
        subst h
        exact ⟨rfl, Or.inl rfl⟩
    · exact hacc c hc

theorem chunksFlatten_props : ∀ pairs : List (Str × Str),
    pairs.length ≤ (pairs.map chunksFor).flatten.length
    ∧ ((pairs.map chunksFor).flatten.countP (fun c => c.kind == "section".toList)
        = pairs.length)
    ∧ (∀ nc ∈ pairs,
        ({ sect := nc.1, content := strip nc.2, kind := "section".toList,
           original := strip nc.2 } : Chunk) ∈ (pairs.map chunksFor).flatten)
    ∧ (∀ c ∈ (pairs.map chunksFor).flatten, c.sect ∈ pairs.map Prod.fst) := by
  intro pairs
  induction pairs with
  | nil => simp
  | cons nc ps ih =>
    obtain ⟨ih1, ih2, ih3, ih4⟩ := ih
    rw [List.map_cons, List.flatten_cons]
    refine ⟨?_, ?_, ?_, ?_⟩
    · rw [List.length_append]
      have h1 : 1 ≤ (chunksFor nc).length := by
        unfold chunksFor
        simp
      simp only [List.length_cons]
      omega
    · rw [List.countP_append, ih2]
      have hcf : (chunksFor nc).countP (fun c => c.kind == "section".toList) = 1 := by
        unfold chunksFor
        rw [List.countP_cons]
        have hz : (chunkSection nc.1 nc.2).countP (fun c => c.kind == "section".toList)
            = 0 := by
          rw [List.countP_eq_zero]
          intro a ha
          have := (chunkSection_all nc.1 nc.2 a ha).2
          rcases this with h | h <;> simp [h]
        rw [hz]
        simp
      rw [hcf]
      simp only [List.length_cons]
      omega
    · intro mc hmc
      rcases List.mem_cons.mp hmc with h | h
      · subst h
        exact List.mem_append_left _ (by unfold chunksFor; exact List.mem_cons_self _ _)
      · exact List.mem_append_right _ (ih3 mc h)
    · intro c hc
      rcases List.mem_append.mp hc with h | h
      · unfold chunksFor at h
        rcases List.mem_cons.mp h with h2 | h2
        · subst h2
          exact List.mem_cons_self _ _
        · have := (chunkSection_all nc.1 nc.2 c h2).1
          rw [List.map_cons, this]
          exact List.mem_cons_self _ _
      · exact List.mem_cons_of_mem _ (ih4 c h)

/-- C4 amended: for a document made of `N` well-formed non-overlapping
tagged regions with pairwise distinct identifiers (fillers and region
contents containing no `<`), chunking produces at least `N` chunks,
exactly `N` of them Section chunks — one per region, carrying that
region's trimmed content — and every produced chunk's section field is
one of the `N` tag identifiers. -/
theorem c4_chunking (f0 : Str) (rs : List (Region × Str))
    (hf0 : ∀ c ∈ f0, c ≠ '<')
    (hwf : ∀ rf ∈ rs, (rf.1.tag ≠ [] ∧ (∀ c ∈ rf.1.tag, isWordChar c = true)
      ∧ (∀ c ∈ rf.1.content, c ≠ '<')) ∧ (∀ c ∈ rf.2, c ≠ '<'))
    (hnd : (rs.map (fun rf => rf.1.tag)).Nodup) :
    rs.length ≤ (loadAndChunk (renderDoc f0 rs)).length
    ∧ (loadAndChunk (renderDoc f0 rs)).countP (fun c => c.kind == "section".toList)
        = rs.length
    ∧ (∀ rf ∈ rs,
        ({ sect := rf.1.tag, content := strip rf.1.content, kind := "section".toList,
           original := strip rf.1.content } : Chunk) ∈ loadAndChunk (renderDoc f0 rs))
    ∧ (∀ c ∈ loadAndChunk (renderDoc f0 rs), c.sect ∈ rs.map (fun rf => rf.1.tag)) := by
  rw [loadAndChunk_eq, extractSections_renderDoc f0 rs hf0 hwf hnd]
  obtain ⟨h1, h2, h3, h4⟩ := chunksFlatten_props (rs.map (fun rf => (rf.1.tag, rf.1.content)))
  refine ⟨?_, ?_, ?_, ?_⟩
  · rw [List.length_map] at h1
    exact h1
  · rw [List.length_map] at h2
    exact h2
  · intro rf hrf
    exact h3 (rf.1.tag, rf.1.content) (List.mem_map_of_mem _ hrf)
  · intro c hc
    have := h4 c hc
    rw [List.map_map] at this
    exact this

/-- C4 counterexample: two well-formed non-overlapping regions sharing
the tag identifier `a` produce a single chunk — fewer than one Section
chunk per region — because `_extract_sections` stores sections in a
dict keyed by tag name, so the later region overwrites the earlier. -/
theorem c4_counterexample :
    renderDoc [] [(⟨"a".toList, "hi".toList⟩, []), (⟨"a".toList, "yo".toList⟩, [])]
      = "<a>hi</a><a>yo</a>".toList
    ∧ (loadAndChunk "<a>hi</a><a>yo</a>".toList).length = 1
    ∧ ¬ (2 ≤ (loadAndChunk "<a>hi</a><a>yo</a>".toList).length) :=
  ⟨by decide, by decide, by decide⟩

/-- C4 witness: two distinct-tag regions give exactly two Section
chunks. -/
theorem c4_chunking_witness :
    (loadAndChunk (renderDoc [] [(⟨"a".toList, "hello".toList⟩, []),
      (⟨"b".toList, "yo".toList⟩, [])])).countP
      (fun c => c.kind == "section".toList) = 2 := by
  have h := c4_chunking [] [(⟨"a".toList, "hello".toList⟩, []),
    (⟨"b".toList, "yo".toList⟩, [])] (by decide) (by decide) (by decide)
  exact h.2.1
